/-
Verification of the generative-music program (ai-music-generation-program.py).

The program is embedded shallowly:
* Python floats are modelled as exact rationals (ℚ); the claims under study
  concern event bookkeeping, index arithmetic and scaling, all of which the
  source performs with exact-valued operands at the granularity the claims
  describe.
* Fallible Python operations (dict subscription `d[k]`, sequence indexing on an
  empty list, `np.max` of an empty array, float division by zero producing a
  non-finite result) are modelled with `Option`: `none` is a raised
  exception / undefined result.
* The global random generator is modelled by oracle streams passed explicitly;
  only the support of each draw matters for the claims, never its
  distribution, so `random.random()` becomes a stream of rationals,
  `random.choice(seq)` an arbitrary index reduced mod `len seq`, and
  `random.shuffle` an arbitrary reordering function (constrained to be a
  permutation where a claim needs it).
* The transcendental sample formulas (`np.sin`, `np.exp`, π) are parameterised
  by a `SynthOracle`; the claims never depend on concrete sample values of
  tones, only on lengths, zero-fallbacks and the mixing arithmetic.
* The `while t < DURATION` loops run on explicit fuel; exhausting the fuel
  yields `none`, and the termination claim is proved as: an explicit fuel
  bound always suffices.
-/
import Mathlib

namespace MusicGen

/-- Sample rate, source line 40: `SR = 44100`. -/
def SR : ℚ := 44100

/-- Total piece duration in seconds, source line 41: `DURATION = 15`. -/
def DURATION : ℚ := 15

/-- Python `int(q)` on a float: truncation toward zero. -/
def pyInt (q : ℚ) : ℤ := if 0 ≤ q then ⌊q⌋ else ⌈q⌉

/-- Python `seq[i % len(seq)]` for an integer `i`: `none` when the sequence is
empty (Python raises `ZeroDivisionError` on `i % 0`), otherwise the element at
the Python (sign-of-divisor) remainder, which is `Int.emod` here. -/
def pickCyc {α : Type} (l : List α) (i : ℤ) : Option α :=
  if l.length = 0 then none else l.get? (i.emod l.length).toNat

/-- Python `random.choice(seq)` driven by an oracle index: `none` on the empty
sequence (Python raises `IndexError`), otherwise an arbitrary in-range
element. -/
def pyChoice {α : Type} (l : List α) (i : ℕ) : Option α :=
  if l.length = 0 then none else l.get? (i % l.length)

/-- Note-frequency table, source lines 44-49 (`note_freqs`); subscription is
fallible (`KeyError`), hence `Option`. -/
def note_freqs (n : String) : Option ℚ :=
  if n = "C3" then some (13081/100) else
  if n = "D3" then some (14683/100) else
  if n = "E3" then some (16481/100) else
  if n = "F3" then some (17461/100) else
  if n = "G3" then some 196 else
  if n = "A3" then some 220 else
  if n = "B3" then some (24694/100) else
  if n = "C4" then some (26163/100) else
  if n = "D4" then some (29366/100) else
  if n = "E4" then some (32963/100) else
  if n = "F4" then some (34923/100) else
  if n = "G4" then some 392 else
  if n = "A4" then some 440 else
  if n = "B4" then some (49388/100) else
  if n = "C5" then some (52325/100) else
  if n = "D5" then some (58733/100) else
  if n = "E5" then some (65925/100) else none

/-- Chord-tone table, source lines 52-58 (`chord_notes`); fallible dict. -/
def chord_notes (root : String) : Option (List String) :=
  if root = "C3" then some ["C4", "E4", "G4"] else
  if root = "G3" then some ["G4", "B4", "D5"] else
  if root = "A3" then some ["A4", "C5", "E5"] else
  if root = "F3" then some ["F4", "A4", "C5"] else
  if root = "E3" then some ["E3", "G3", "B3"] else none

/-- Progression catalog, source lines 61-68. -/
def chord_progressions : List (List String) :=
  [["C3", "G3", "A3", "F3"],
   ["A3", "F3", "C3", "G3"],
   ["F3", "G3", "E3", "A3"],
   ["C3", "A3", "F3", "G3"],
   ["C3", "F3", "G3", "C3"],
   ["A3", "F3", "G3", "C3"]]

/-- The C-major pool, source line 70. -/
def scale : List String :=
  ["C4", "D4", "E4", "F4", "G4", "A4", "B4", "C5"]

/-- A timed event `(symbol, duration_seconds, start_time_seconds)` as appended
by every layer generator. -/
structure Event where
  name  : String
  dur   : ℚ
  start : ℚ
deriving DecidableEq, Repr

/-- Oracle for the transcendental / random sample formulas: `np.sin`, `np.exp`,
π and `np.random.rand` (indexed by sample position). The claims never inspect
tone sample values, so these stay abstract. -/
structure SynthOracle where
  sinQ  : ℚ → ℚ
  expQ  : ℚ → ℚ
  piQ   : ℚ
  randQ : ℕ → ℚ

/-- `np.linspace(0, dur, n, False)`: `n` evenly spaced samples with step
`dur / n`, endpoint excluded. -/
def linspace (dur : ℚ) (n : ℕ) : List ℚ :=
  (List.range n).map (fun i => dur * i / n)

/-- `sine_wave(freq, dur, decay_factor)`, source lines 82-88: a sine tone over
`int(SR*dur)` samples, multiplied by the envelope `exp(-t/dur*decay)` when
`decay_factor > 0`. -/
def sine_wave (o : SynthOracle) (freq dur decay_factor : ℚ) : List ℚ :=
  let n := (pyInt (SR * dur)).toNat
  (linspace dur n).map (fun t =>
    o.sinQ (2 * o.piQ * freq * t) *
      (if 0 < decay_factor then o.expQ (-t / dur * decay_factor) else 1))

/-- `drum_sound(kind, dur)`, source lines 90-100. The four known kinds produce
their fixed formulas; any other kind yields `np.zeros(len(t))`. -/
def drum_sound (o : SynthOracle) (kind : String) (dur : ℚ) : List ℚ :=
  let n := (pyInt (SR * dur)).toNat
  let ts := linspace dur n
  let noise := (List.range n).map o.randQ
  if kind = "kick" then
    ts.map (fun t => o.sinQ (2 * o.piQ * 55 * t) * o.expQ (-(t * 30)))
  else if kind = "snare" then
    List.zipWith (fun t r =>
      (8/10 * o.sinQ (2 * o.piQ * 180 * t) + 2/10 * r) * o.expQ (-(t * 20))) ts noise
  else if kind = "hihat" then
    List.zipWith (fun t r => r * o.expQ (-(t * 60)) * (4/10)) ts noise
  else if kind = "clap" then
    List.zipWith (fun t r => r * o.expQ (-(t * 40)) * (6/10)) ts noise
  else List.replicate n 0

/-- One slice-accumulation `buf[i0:i1] += data[:i1-i0]` guarded by `i0 < N`
with `i1 = min(i0 + len(data), N)`, the body of `add_events`
(source lines 104-110). -/
def add_event (buf : List ℚ) (i0 : ℕ) (data : List ℚ) : List ℚ :=
  let N := buf.length
  let i1 := min (i0 + data.length) N
  if i0 < N then
    buf.take i0 ++
      List.zipWith (· + ·) ((buf.drop i0).take (i1 - i0)) (data.take (i1 - i0)) ++
      buf.drop i1
  else buf

/-- `add_events(buf, events, gen_fn, vol)`, source lines 103-110: for each
event in order, compute `i0 = int(start * SR)`, synthesize `gen_fn(name, dur)`
scaled by `vol`, and accumulate the clamped slice. A raised exception inside
`gen_fn` (e.g. a `KeyError` from a pitch-table lookup) aborts the whole run:
`none`. The model covers the executions that actually occur, where
`start >= 0`. -/
def add_events (buf : List ℚ) (events : List Event)
    (gen_fn : String → ℚ → Option (List ℚ)) (vol : ℚ) : Option (List ℚ) :=
  events.foldlM (fun b e =>
    (gen_fn e.name e.dur).map (fun w =>
      add_event b (pyInt (e.start * SR)).toNat (w.map (fun x => x * vol)))) buf

/-- The per-layer synthesizer closures of source lines 208-212. -/
def melodyGen (o : SynthOracle) (n : String) (d : ℚ) : Option (List ℚ) :=
  (note_freqs n).map (fun f => sine_wave o f d 3)

/-- Arpeggio layer closure, source line 209 (same decay 3 as melody). -/
def arpGen (o : SynthOracle) (n : String) (d : ℚ) : Option (List ℚ) :=
  (note_freqs n).map (fun f => sine_wave o f d 3)

/-- Bass layer closure, source line 210 (decay 0: sustained tone). -/
def bassGen (o : SynthOracle) (n : String) (d : ℚ) : Option (List ℚ) :=
  (note_freqs n).map (fun f => sine_wave o f d 0)

/-- Pads layer closure, source line 211 (decay 0.5). -/
def padsGen (o : SynthOracle) (n : String) (d : ℚ) : Option (List ℚ) :=
  (note_freqs n).map (fun f => sine_wave o f d (1/2))

/-- Drum layer closure, source line 212; `drum_sound` never raises. -/
def drumGen (o : SynthOracle) (k : String) (d : ℚ) : Option (List ℚ) :=
  some (drum_sound o k d)

/-- `np.max(np.abs(buffer))`: `none` on an empty array (numpy raises),
otherwise the maximum absolute value. -/
def npMaxAbs (buf : List ℚ) : Option ℚ :=
  match buf with
  | [] => none
  | x :: xs => some ((xs.map (fun y => |y|)).foldl max |x|)

/-- The normalizer, source line 215: `buffer *= 0.9 / np.max(np.abs(buffer))`.
There is no guard in the source: when the maximum is 0 the float division
yields a non-finite scale and the resulting buffer is undefined (NaN), which
the exact-arithmetic model renders as `none`. -/
def normalize (buf : List ℚ) : Option (List ℚ) :=
  (npMaxAbs buf).bind (fun m =>
    if m = 0 then none else some (buf.map (fun x => x * (9/10 / m))))

/-- Length of the shared buffer, source line 206:
`np.zeros(int(DURATION*SR))`. -/
def buffer_len : ℕ := (pyInt (DURATION * SR)).toNat

/-! ## Layer generators (source lines 113-193)

Each `while t < DURATION` loop is run on explicit fuel; `none` means the fuel
ran out before the loop condition failed (or a Python exception was raised in
the body). The total duration `D` stands for the global `DURATION`, passed
explicitly so that claims about other durations are statable. -/

/-- Random draws consumed by one melody step, as oracle streams indexed by the
step counter: `poolQ` is the `random.random()` compared with 0.7, `poolC` the
`random.choice` into the pool, `motifQ` the `random.random()` compared with
0.2, `motifC` the `random.choice` into the motif, and `durC` the
`random.choices` pick from `[0.5, 1.0, 2.0]` (weights only shape the
distribution, never the support). -/
structure MelRand where
  poolQ  : ℕ → ℚ
  poolC  : ℕ → ℕ
  motifQ : ℕ → ℚ
  motifC : ℕ → ℕ
  durC   : ℕ → ℕ

/-- Loop body of `make_melody`, source lines 113-128. -/
def melodyLoop (prog : List String) (bpm : ℚ) (motif : List String)
    (r : MelRand) (D : ℚ) :
    ℕ → ℚ → ℕ → List Event → Option (List Event)
  | 0, _, _, _ => none
  | fuel + 1, t, k, acc =>
    if t < D then
      let beat := 60 / bpm
      let chord_len := 4 * beat
      let dur := min ([(1:ℚ)/2, 1, 2].getD (r.durC k % 3) 1 * beat) (D - t)
      (pickCyc prog (pyInt (t / chord_len))).bind (fun root =>
      (if r.poolQ k < 7/10 then chord_notes root else some scale).bind (fun pool =>
      (pyChoice pool (r.poolC k)).bind (fun drawn =>
      (if r.motifQ k < 2/10 then pyChoice motif (r.motifC k)
       else some drawn).bind (fun note =>
      melodyLoop prog bpm motif r D fuel (t + dur) (k + 1)
        (acc ++ [⟨note, dur, t⟩])))))
    else some acc

/-- `make_melody(prog, bpm, motif)`, source lines 113-128. -/
def make_melody (prog : List String) (bpm : ℚ) (motif : List String)
    (r : MelRand) (D : ℚ) (fuel : ℕ) : Option (List Event) :=
  melodyLoop prog bpm motif r D fuel 0 0 []

/-- Sort key `lambda n: note_freqs[n]`, source lines 140-141. Every chord tone
is present in the table (`chord_notes_freqs_isSome` below), so the fallback 0
for an absent name is never exercised by the program. -/
def freqKey (n : String) : ℚ := (note_freqs n).getD 0

/-- Random draws consumed by the arpeggio generator: one style choice per
invocation and one `random.shuffle` reordering per step. -/
structure ArpRand where
  styleC  : ℕ
  shuffle : ℕ → List String → List String

/-- Loop body of `make_arpeggio`, source lines 131-146. Python's stable `sort`
is `mergeSort`; `reverse=True` flips the key comparison while keeping equal
keys in order. -/
def arpLoop (prog : List String) (bpm : ℚ) (r : ArpRand) (D : ℚ)
    (style : String) :
    ℕ → ℚ → ℕ → List Event → Option (List Event)
  | 0, _, _, _ => none
  | fuel + 1, t, idx, acc =>
    if t < D then
      let beat := 60 / bpm
      let dur := min ((1/2) * beat) (D - t)
      (pickCyc prog (pyInt (t / (4 * beat)))).bind (fun root =>
      (chord_notes root).bind (fun notes0 =>
      let notes :=
        if style = "asc" then notes0.mergeSort (fun a b => freqKey a ≤ freqKey b)
        else if style = "desc" then notes0.mergeSort (fun a b => freqKey b ≤ freqKey a)
        else if style = "rand" then r.shuffle idx notes0
        else notes0
      (pickCyc notes idx).bind (fun n =>
      arpLoop prog bpm r D style fuel (t + dur) (idx + 1)
        (acc ++ [⟨n, dur, t⟩]))))
    else some acc

/-- `make_arpeggio(prog, bpm)`, source lines 131-146: draw the style once,
then run the step loop. -/
def make_arpeggio (prog : List String) (bpm : ℚ) (r : ArpRand) (D : ℚ)
    (fuel : ℕ) : Option (List Event) :=
  (pyChoice ["asc", "desc", "rand"] r.styleC).bind (fun style =>
    arpLoop prog bpm r D style fuel 0 0 [])

/-- Loop body of `make_bass`, source lines 149-158 (no randomness): one
root-note event per chord, indexed by event count. -/
def bassLoop (prog : List String) (bpm D : ℚ) :
    ℕ → ℚ → ℕ → List Event → Option (List Event)
  | 0, _, _, _ => none
  | fuel + 1, t, idx, acc =>
    if t < D then
      let beat := 60 / bpm
      let dur := min (4 * beat) (D - t)
      (pickCyc prog idx).bind (fun root =>
      bassLoop prog bpm D fuel (t + dur) (idx + 1) (acc ++ [⟨root, dur, t⟩]))
    else some acc

/-- `make_bass(prog, bpm)`, source lines 149-158. -/
def make_bass (prog : List String) (bpm D : ℚ) (fuel : ℕ) :
    Option (List Event) :=
  bassLoop prog bpm D fuel 0 0 []

/-- Loop body of `make_pads`, source lines 161-174 (no randomness): three
simultaneous triad-tone events per chord; the clock advances by the full
`chord_dur` even when the emitted duration was clamped. -/
def padsLoop (prog : List String) (bpm D : ℚ) :
    ℕ → ℚ → ℕ → List Event → Option (List Event)
  | 0, _, _, _ => none
  | fuel + 1, t, idx, acc =>
    if t < D then
      let beat := 60 / bpm
      let chord_dur := 4 * beat
      let dur := min chord_dur (D - t)
      (pickCyc prog idx).bind (fun root =>
      (chord_notes root).bind (fun notes =>
      padsLoop prog bpm D fuel (t + chord_dur) (idx + 1)
        (acc ++ notes.map (fun n => ⟨n, dur, t⟩))))
    else some acc

/-- `make_pads(prog, bpm)`, source lines 161-174. -/
def make_pads (prog : List String) (bpm D : ℚ) (fuel : ℕ) :
    Option (List Event) :=
  padsLoop prog bpm D fuel 0 0 []

/-- `make_drums(bpm)`, source lines 177-193: a `for` loop over the beat slots
`range(int(DURATION/beat))`; `roll` is the `random.random()` stream compared
with 0.1 for the snare-roll branch. -/
def make_drums (bpm D : ℚ) (roll : ℕ → ℚ) : List Event :=
  let beat := 60 / bpm
  (List.range (pyInt (D / beat)).toNat).flatMap (fun i =>
    let start := i * beat
    let b := i % 4 + 1
    (if b = 1 ∨ b = 3 then [⟨"kick", 8/100, start⟩] else []) ++
    (if b = 2 ∨ b = 4 then
       [⟨"snare", 8/100, start⟩] ++
       (if D / 2 < start then [⟨"clap", 8/100, start⟩] else [])
     else []) ++
    [⟨"hihat", 6/100, start⟩, ⟨"hihat", 4/100, start + 25/100 * beat⟩] ++
    (if roll i < 1/10 then
       (List.range 4).map (fun j => ⟨"snare", 5/100, start + j * (5/100)⟩)
     else []))

/-- One layer handed to the mixer: an event list, the synthesizer closure and
the per-layer volume (source lines 208-212). -/
structure Layer where
  events : List Event
  gen    : String → ℚ → Option (List ℚ)
  vol    : ℚ

/-- Mix a single layer into the buffer. -/
def mixLayer (buf : List ℚ) (l : Layer) : Option (List ℚ) :=
  add_events buf l.events l.gen l.vol

/-- The five `add_events` calls of source lines 208-212, in order. -/
def mixLayers (buf : List ℚ) (ls : List Layer) : Option (List ℚ) :=
  ls.foldlM mixLayer buf

/-! ## Property-side definitions

These render the spec's testable properties as decidable predicates, to be
compared with the source-side definitions above. -/

/-- The spec's chaining property for a layer's event list: each event starts
where the previous one ended, beginning at clock `t`. -/
def chainB (t : ℚ) : List Event → Bool
  | [] => true
  | e :: rest => decide (e.start = t) && chainB (t + e.dur) rest

/-- Total emitted duration of an event list. -/
def sumDur (es : List Event) : ℚ := (es.map Event.dur).sum

/-- The actual shape of a pads event list: groups of three simultaneous
triad-tone events sharing start `t` and duration `min chord_dur (D - t)`,
with group onsets `chord_dur` apart, until the clock reaches `D`. -/
def padsChainB (chord_dur D : ℚ) : ℚ → List Event → Bool
  | t, [] => decide (D ≤ t)
  | t, e1 :: e2 :: e3 :: rest =>
      decide (t < D) &&
      decide (e1.start = t) && decide (e2.start = t) && decide (e3.start = t) &&
      decide (e1.dur = min chord_dur (D - t)) &&
      decide (e2.dur = min chord_dur (D - t)) &&
      decide (e3.dur = min chord_dur (D - t)) &&
      padsChainB chord_dur D (t + chord_dur) rest
  | _, _ => false

/-- The deterministic per-slot drum events exactly as the spec words them:
phase `b = i % 4 + 1`; a kick (0.08s) when `b ∈ {1,3}`; a snare (0.08s) when
`b ∈ {2,4}`, plus a clap (0.08s) when additionally the slot start is strictly
past `D/2`; and on every slot two hi-hats, 0.06s at the slot start and 0.04s
at `start + 0.25*beat`. -/
def drumSpecSlot (beat D : ℚ) (i : ℕ) : List Event :=
  let start := i * beat
  let b := i % 4 + 1
  (if b = 1 ∨ b = 3 then [⟨"kick", 8/100, start⟩] else []) ++
  (if b = 2 ∨ b = 4 then
     [⟨"snare", 8/100, start⟩] ++
     (if D / 2 < start then [⟨"clap", 8/100, start⟩] else [])
   else []) ++
  [⟨"hihat", 6/100, start⟩, ⟨"hihat", 4/100, start + 1/4 * beat⟩]

/-- The (duration, start) skeleton of the arpeggio loop: the timing of the
emitted events is independent of every random draw. -/
def arpSkel (bpm D : ℚ) : ℕ → ℚ → List (ℚ × ℚ)
  | 0, _ => []
  | fuel + 1, t =>
    if t < D then
      (min ((1/2) * (60 / bpm)) (D - t), t) ::
        arpSkel bpm D fuel (t + min ((1/2) * (60 / bpm)) (D - t))
    else []

/-! ## Helper lemmas -/

theorem chord_notes_length {rt : String} {l : List String}
    (h : chord_notes rt = some l) : l.length = 3 := by
  unfold chord_notes at h
  split_ifs at h <;> simp only [Option.some_inj, reduceCtorEq] at h <;>
    (subst l; rfl)

theorem pickCyc_eq_some {α : Type} {l : List α} (i : ℤ) (h : l ≠ []) :
    ∃ a, pickCyc l i = some a ∧ a ∈ l := by
  have hlen : l.length ≠ 0 := by simpa using h
  have hpos : (0 : ℤ) < (l.length : ℤ) := by exact_mod_cast Nat.pos_of_ne_zero hlen
  have hnonneg : 0 ≤ i.emod l.length := Int.emod_nonneg i (by exact_mod_cast hlen)
  have hlt : (i.emod l.length).toNat < l.length := by
    rw [Int.toNat_lt hnonneg]
    exact Int.emod_lt_of_pos i hpos
  refine ⟨l.get ⟨(i.emod l.length).toNat, hlt⟩, ?_, List.get_mem l _ hlt⟩
  unfold pickCyc
  rw [if_neg hlen, List.get?_eq_get hlt]

theorem pyChoice_eq_some {α : Type} {l : List α} (i : ℕ) (h : l ≠ []) :
    ∃ a, pyChoice l i = some a ∧ a ∈ l := by
  have hlen : l.length ≠ 0 := by simpa using h
  have hlt : i % l.length < l.length := Nat.mod_lt _ (Nat.pos_of_ne_zero hlen)
  refine ⟨l.get ⟨i % l.length, hlt⟩, ?_, List.get_mem l _ hlt⟩
  unfold pyChoice
  rw [if_neg hlen, List.get?_eq_get hlt]

theorem le_foldl_max (l : List ℚ) : ∀ a : ℚ, a ≤ l.foldl max a := by
  induction l with
  | nil => intro a; exact le_refl a
  | cons x xs ih =>
    intro a
    exact le_trans (le_max_left a x) (ih (max a x))

theorem npMaxAbs_nonneg {buf : List ℚ} {m : ℚ} (h : npMaxAbs buf = some m) :
    0 ≤ m := by
  cases buf with
  | nil => simp [npMaxAbs] at h
  | cons x xs =>
    simp only [npMaxAbs, Option.some_inj] at h
    calc (0 : ℚ) ≤ |x| := abs_nonneg x
    _ ≤ (xs.map (fun y => |y|)).foldl max |x| := le_foldl_max _ _
    _ = m := h

theorem foldl_max_abs_mul (xs : List ℚ) :
    ∀ (a c : ℚ), 0 ≤ c →
      (xs.map (fun y => |y * c|)).foldl max (a * c) =
        ((xs.map (fun y => |y|)).foldl max a) * c := by
  induction xs with
  | nil => intro a c _; rfl
  | cons y ys ih =>
    intro a c hc
    have habs : |y * c| = |y| * c := by
      rw [abs_mul, abs_of_nonneg hc]
    have hmax : max (a * c) (|y| * c) = (max a |y|) * c :=
      (max_mul_of_nonneg a |y| hc).symm
    simp only [List.map_cons, List.foldl_cons, habs, hmax]
    exact ih (max a |y|) c hc

theorem npMaxAbs_map_mul {buf : List ℚ} {m : ℚ} (hm : npMaxAbs buf = some m)
    {c : ℚ} (hc : 0 ≤ c) :
    npMaxAbs (buf.map (fun x => x * c)) = some (m * c) := by
  cases buf with
  | nil => simp [npMaxAbs] at hm
  | cons x xs =>
    simp only [npMaxAbs, Option.some_inj] at hm
    have h1 : |x * c| = |x| * c := by rw [abs_mul, abs_of_nonneg hc]
    simp only [List.map_cons, npMaxAbs, List.map_map, Option.some_inj]
    show ((xs.map fun y => |y * c|).foldl max |x * c|) = m * c
    rw [h1, foldl_max_abs_mul xs |x| c hc, hm]

theorem normalize_of_max {buf : List ℚ} {m : ℚ} (hm : npMaxAbs buf = some m)
    (hne : m ≠ 0) :
    normalize buf = some (buf.map (fun x => x * (9/10 / m))) := by
  unfold normalize
  rw [hm, Option.some_bind, if_neg hne]

theorem foldl_max_replicate_zero : ∀ n : ℕ, (List.replicate n (0:ℚ)).foldl max 0 = 0 := by
  intro n
  induction n with
  | zero => rfl
  | succ k ih => simpa [List.replicate_succ] using ih

theorem npMaxAbs_replicate_zero (n : ℕ) :
    npMaxAbs (List.replicate (n+1) (0:ℚ)) = some 0 := by
  rw [List.replicate_succ]
  simp only [npMaxAbs, Option.some_inj, List.map_replicate, abs_zero]
  exact foldl_max_replicate_zero n

/-! ## Claim C1 -/

/-- Claim C1 (counterexample): on the all-zero buffer `[0, 0, 0]` the
normalizer of source line 215 does not leave the silent buffer unchanged — the
unguarded division `0.9 / max` is a division by zero and the run's result is
undefined (`none`), not `some [0, 0, 0]`. -/
theorem C1_counterexample :
    normalize [0, 0, 0] = none ∧ normalize [0, 0, 0] ≠ some [0, 0, 0] := by
  refine ⟨by decide, ?_⟩
  intro h
  rw [show normalize [0, 0, 0] = none from by decide] at h
  exact Option.noConfusion h

/-- Claim C1 (amended): normalization is NOT skipped on an all-zero buffer —
the scale step divides by zero and the result is undefined (`none`); for every
buffer with non-zero maximum absolute amplitude `m`, every sample is scaled by
`0.9 / m`. -/
theorem C1_normalizer_amended :
    (∀ n : ℕ, normalize (List.replicate (n+1) (0:ℚ)) = none) ∧
    (∀ (buf : List ℚ) (m : ℚ), npMaxAbs buf = some m → m ≠ 0 →
      normalize buf = some (buf.map (fun x => x * (9/10 / m)))) := by
  constructor
  · intro n
    unfold normalize
    rw [npMaxAbs_replicate_zero n, Option.some_bind, if_pos rfl]
  · intro buf m hb hne
    exact normalize_of_max hb hne

/-- Witness for C1: the amended theorem applied at the silent buffer
`[0, 0, 0]` and at the non-silent buffer `[1, 2, -4]` (maximum 4). -/
theorem C1_normalizer_amended_witness :
    normalize (List.replicate 3 (0:ℚ)) = none ∧
    normalize [1, 2, -4] = some [9/40, 9/20, -9/10] := by
  constructor
  · exact C1_normalizer_amended.1 2
  · have h := C1_normalizer_amended.2 [1, 2, -4] 4 (by decide) (by norm_num)
    rw [h]
    norm_num

/-! ## Claim C6 -/

/-- Claim C6 (confirmed): for a non-silent buffer, one application of the
normalizer makes the peak absolute amplitude exactly 0.9, and a second
application changes no sample. -/
theorem C6_normalize_idempotent (buf : List ℚ) (m : ℚ)
    (hm : npMaxAbs buf = some m) (hne : m ≠ 0) :
    ∃ out, normalize buf = some out ∧ npMaxAbs out = some (9/10) ∧
      normalize out = some out := by
  have hm0 : 0 ≤ m := npMaxAbs_nonneg hm
  have hmpos : 0 < m := lt_of_le_of_ne hm0 (Ne.symm hne)
  have hc : (0:ℚ) ≤ 9/10 / m := by positivity
  have hmax : npMaxAbs (buf.map (fun x => x * (9/10 / m))) = some (9/10) := by
    rw [npMaxAbs_map_mul hm hc]
    congr 1
    field_simp
    ring
  refine ⟨buf.map (fun x => x * (9/10 / m)), normalize_of_max hm hne, hmax, ?_⟩
  rw [normalize_of_max hmax (by norm_num)]
  congr 1
  have h1 : ∀ x : ℚ, x * (9/10 / (9/10)) = x := by intro x; norm_num
  simp only [List.map_map, Function.comp_def, h1]

/-- Witness for C6 at the concrete buffer `[1, 2, -4]` with maximum 4. -/
theorem C6_normalize_idempotent_witness :
    ∃ out, normalize [1, 2, -4] = some out ∧ npMaxAbs out = some (9/10) ∧
      normalize out = some out :=
  C6_normalize_idempotent [1, 2, -4] 4 (by decide) (by norm_num)

/-! ## Mixer lemmas -/

theorem add_events_nil (buf : List ℚ) (gen : String → ℚ → Option (List ℚ))
    (vol : ℚ) : add_events buf [] gen vol = some buf := rfl

theorem add_events_cons (buf : List ℚ) (e : Event) (es : List Event)
    (gen : String → ℚ → Option (List ℚ)) (vol : ℚ) :
    add_events buf (e :: es) gen vol =
      (gen e.name e.dur).bind (fun w =>
        add_events (add_event buf (pyInt (e.start * SR)).toNat
          (w.map (fun x => x * vol))) es gen vol) := by
  cases h : gen e.name e.dur <;>
    simp [add_events, List.foldlM_cons, h]

theorem add_event_length (buf : List ℚ) (i0 : ℕ) (data : List ℚ) :
    (add_event buf i0 data).length = buf.length := by
  unfold add_event
  by_cases h : i0 < buf.length
  · simp only [if_pos h, List.length_append, List.length_take,
      List.length_zipWith, List.length_drop]
    omega
  · rw [if_neg h]

theorem add_event_oob (buf : List ℚ) (i0 : ℕ) (data : List ℚ)
    (h : buf.length ≤ i0) : add_event buf i0 data = buf := by
  unfold add_event
  rw [if_neg (Nat.not_lt.mpr h)]

theorem add_events_length (es : List Event)
    (gen : String → ℚ → Option (List ℚ)) (vol : ℚ) :
    ∀ (buf out : List ℚ), add_events buf es gen vol = some out →
      out.length = buf.length := by
  induction es with
  | nil =>
    intro buf out h
    rw [add_events_nil] at h
    cases h
    rfl
  | cons e es ih =>
    intro buf out h
    rw [add_events_cons] at h
    cases hg : gen e.name e.dur with
    | none => rw [hg] at h; cases h
    | some w =>
      rw [hg, Option.some_bind] at h
      rw [ih _ _ h, add_event_length]

theorem add_events_singleton (buf : List ℚ) (e : Event)
    (gen : String → ℚ → Option (List ℚ)) (vol : ℚ) (w : List ℚ)
    (hg : gen e.name e.dur = some w) :
    add_events buf [e] gen vol =
      some (add_event buf (pyInt (e.start * SR)).toNat
        (w.map (fun x => x * vol))) := by
  rw [add_events_cons, hg, Option.some_bind, add_events_nil]

theorem add_events_abort (es : List Event)
    (gen : String → ℚ → Option (List ℚ)) (vol : ℚ) (e : Event)
    (he : e ∈ es) (hg : gen e.name e.dur = none) :
    ∀ buf, add_events buf es gen vol = none := by
  induction es with
  | nil => cases he
  | cons a as ih =>
    intro buf
    rw [add_events_cons]
    cases ha : gen a.name a.dur with
    | none => rfl
    | some w =>
      rw [Option.some_bind]
      rcases List.mem_cons.mp he with rfl | hmem
      · rw [ha] at hg; cases hg
      · exact ih hmem _

theorem add_event_getD (buf : List ℚ) (i0 : ℕ) (data : List ℚ) (j : ℕ)
    (hj : j < buf.length) :
    (add_event buf i0 data).getD j 0 =
      buf.getD j 0 +
        (if i0 ≤ j ∧ j < min (i0 + data.length) buf.length
         then data.getD (j - i0) 0 else 0) := by
  by_cases hi : i0 < buf.length
  · simp only [add_event]
    rw [if_pos hi]
    set i1 := min (i0 + data.length) buf.length with hi1
    have lenT : (buf.take i0).length = i0 := by
      rw [List.length_take]; omega
    have lenZ : (List.zipWith (· + ·) ((buf.drop i0).take (i1 - i0))
        (data.take (i1 - i0))).length = i1 - i0 := by
      rw [List.length_zipWith, List.length_take, List.length_take,
        List.length_drop]
      omega
    rcases Nat.lt_or_ge j i0 with hA | hA
    · rw [List.append_assoc, List.getD_append _ _ _ _ (by rw [lenT]; omega)]
      rw [List.getD_eq_getElem?_getD, List.getElem?_take, if_pos hA,
        ← List.getD_eq_getElem?_getD]
      rw [if_neg (by omega), add_zero]
    · rcases Nat.lt_or_ge j i1 with hB | hB
      · rw [List.append_assoc,
          List.getD_append_right _ _ _ _ (by rw [lenT]; omega), lenT]
        rw [List.getD_append _ _ _ _ (by rw [lenZ]; omega)]
        rw [List.getD_eq_getElem?_getD, List.getElem?_zipWith]
        have hcond : j - i0 < i1 - i0 := by omega
        simp only [List.getElem?_take, hcond, if_true]
        rw [List.getElem?_drop]
        have hij : i0 + (j - i0) = j := by omega
        rw [hij]
        have hb := @List.getElem?_eq_getElem ℚ buf j hj
        have hd := @List.getElem?_eq_getElem ℚ data (j - i0) (by omega)
        rw [hb, hd]
        have hif : (if i0 ≤ j ∧ j < i1 then data.getD (j - i0) 0 else 0) =
            data.getD (j - i0) 0 := by
          rw [if_pos]
          exact ⟨hA, hB⟩
        rw [hif]
        rw [List.getD_eq_getElem?_getD buf j 0, hb,
          List.getD_eq_getElem?_getD data (j - i0) 0, hd]
        rfl
      · rw [List.append_assoc,
          List.getD_append_right _ _ _ _ (by rw [lenT]; omega), lenT]
        rw [List.getD_append_right _ _ _ _ (by rw [lenZ]; omega), lenZ]
        have hidx : j - i0 - (i1 - i0) = j - i1 := by omega
        rw [hidx]
        rw [List.getD_eq_getElem?_getD, List.getElem?_drop]
        have hij : i1 + (j - i1) = j := by omega
        rw [hij, ← List.getD_eq_getElem?_getD]
        rw [if_neg (by omega), add_zero]
  · simp only [add_event]
    rw [if_neg hi]
    rw [if_neg (by omega), add_zero]

/-! ## Claim C2 -/

/-- Claim C2 (counterexample): an event whose symbol `"Z9"` is absent from the
pitch table does not yield silence for that single event — the `KeyError` from
`note_freqs[n]` inside the melody closure aborts the whole mixing run
(`none`), instead of returning the unchanged buffer `[0, 0]`. -/
theorem C2_counterexample :
    note_freqs "Z9" = none ∧
    add_events [0, 0] [⟨"Z9", 1/44100, 0⟩]
      (melodyGen ⟨fun _ => 0, fun _ => 0, 0, fun _ => 0⟩) (9/10) = none := by
  constructor
  · rfl
  · rfl

/-- Claim C2 (amended): the permissive silence fallback exists only in the
percussion synthesizer — `drum_sound` returns `int(SR*dur)` zeros for any
unrecognized kind — while a tonal-layer symbol absent from the pitch table
raises a lookup error that aborts the entire run instead of yielding
silence. -/
theorem C2_unknown_symbol_amended :
    (∀ (o : SynthOracle) (kind : String) (dur : ℚ),
        kind ∉ ["kick", "snare", "hihat", "clap"] →
        drum_sound o kind dur = List.replicate (pyInt (SR * dur)).toNat 0) ∧
    (∀ (o : SynthOracle) (n : String) (d : ℚ),
        note_freqs n = none → melodyGen o n d = none) ∧
    (∀ (buf : List ℚ) (es : List Event) (gen : String → ℚ → Option (List ℚ))
        (vol : ℚ) (e : Event), e ∈ es → gen e.name e.dur = none →
        add_events buf es gen vol = none) := by
  refine ⟨?_, ?_, ?_⟩
  · intro o kind dur hk
    simp only [List.mem_cons, List.not_mem_nil, or_false, not_or] at hk
    simp only [drum_sound, if_neg hk.1, if_neg hk.2.1, if_neg hk.2.2.1,
      if_neg hk.2.2.2]
  · intro o n d hn
    rw [melodyGen, hn]
    rfl
  · intro buf es gen vol e he hg
    exact add_events_abort es gen vol e he hg buf

/-- Witness for C2: the drum fallback at the unknown kind `"tom"` over two
samples, the melody closure at the unknown note `"Z9"`, and the resulting
abort of a one-event mix. -/
theorem C2_unknown_symbol_amended_witness :
    drum_sound ⟨fun _ => 1, fun _ => 1, 22/7, fun _ => 0⟩ "tom" (2/44100) =
      List.replicate (pyInt (SR * (2/44100))).toNat 0 ∧
    melodyGen ⟨fun _ => 1, fun _ => 1, 22/7, fun _ => 0⟩ "H7" 1 = none ∧
    add_events [0, 0, 0] [⟨"H7", 1, 0⟩]
      (melodyGen ⟨fun _ => 1, fun _ => 1, 22/7, fun _ => 0⟩) (3/10) = none := by
  refine ⟨?_, ?_, ?_⟩
  · exact C2_unknown_symbol_amended.1 _ "tom" (2/44100) (by decide)
  · exact C2_unknown_symbol_amended.2.1 _ "H7" 1 (by decide)
  · exact C2_unknown_symbol_amended.2.2 [0, 0, 0] _ _ (3/10) ⟨"H7", 1, 0⟩
      (List.mem_singleton.mpr rfl)
      (C2_unknown_symbol_amended.2.1 _ "H7" 1 (by decide))

/-! ## Claim C3 -/

/-- Claim C3 (counterexample): the mixer computes the start index with
`int(start*SR)` — truncation — not rounding to nearest. For an event starting
at `7/441000` s we have `start*SR = 0.7`: rounding gives index 1, but the code
places a one-sample waveform `[1]` at index 0, so the claimed
round-to-nearest placement `[0, 1, 0]` differs from the actual result
`[1, 0, 0]`. -/
theorem C3_counterexample :
    round ((7/441000 : ℚ) * SR) = 1 ∧
    (pyInt ((7/441000 : ℚ) * SR)).toNat = 0 ∧
    add_events [0, 0, 0] [⟨"x", 1/44100, 7/441000⟩]
      (fun _ _ => some [1]) 1 = some [1, 0, 0] ∧
    add_event [0, 0, 0] (round ((7/441000 : ℚ) * SR)).toNat [1] = [0, 1, 0] ∧
    ([1, 0, 0] : List ℚ) ≠ [0, 1, 0] := by
  have hround : round ((7/441000 : ℚ) * SR) = 1 := by
    rw [round_eq]
    norm_num [SR]
  have hpy : (pyInt ((7/441000 : ℚ) * SR)).toNat = 0 := by
    have h0 : pyInt ((7/441000 : ℚ) * SR) = 0 := by norm_num [pyInt, SR]
    rw [h0]
    rfl
  refine ⟨hround, hpy, ?_, ?_, by decide⟩
  · rw [add_events_singleton _ _ _ _ [1] rfl]
    show some (add_event [0, 0, 0] (pyInt ((7/441000 : ℚ) * SR)).toNat
      ([1].map (fun x => x * 1))) = some [1, 0, 0]
    rw [hpy]
    congr 1
    simp only [List.map_cons, List.map_nil, mul_one]
    simp [add_event]
  · rw [hround]
    show add_event [0, 0, 0] 1 [1] = [0, 1, 0]
    simp [add_event]

/-- Claim C3 (amended): for every event with non-negative start, the start
index is `i0 = int(start * SR)`, i.e. `⌊start * SR⌋` (truncation, not rounding
to nearest); the end index is `i1 = min(i0 + len(waveform), N)`; and exactly
the first `i1 - i0` samples of the volume-scaled waveform are added —
accumulated onto the existing contents — at positions `i0 ≤ j < i1`. -/
theorem C3_mixer_index_amended (buf : List ℚ) (e : Event)
    (gen : String → ℚ → Option (List ℚ)) (vol : ℚ) (w : List ℚ)
    (hg : gen e.name e.dur = some w) (hs : 0 ≤ e.start) :
    pyInt (e.start * SR) = ⌊e.start * SR⌋ ∧
    ∃ out, add_events buf [e] gen vol = some out ∧
      out.length = buf.length ∧
      ∀ j, j < buf.length →
        out.getD j 0 = buf.getD j 0 +
          (if (pyInt (e.start * SR)).toNat ≤ j ∧
              j < min ((pyInt (e.start * SR)).toNat + w.length) buf.length
           then w.getD (j - (pyInt (e.start * SR)).toNat) 0 * vol else 0) := by
  have hSR : (0:ℚ) ≤ SR := by norm_num [SR]
  constructor
  · unfold pyInt
    rw [if_pos (mul_nonneg hs hSR)]
  · refine ⟨add_event buf (pyInt (e.start * SR)).toNat
      (w.map (fun x => x * vol)), add_events_singleton buf e gen vol w hg,
      add_event_length _ _ _, ?_⟩
    intro j hj
    rw [add_event_getD buf _ _ j hj]
    simp only [List.length_map]
    by_cases hcond : (pyInt (e.start * SR)).toNat ≤ j ∧
        j < min ((pyInt (e.start * SR)).toNat + w.length) buf.length
    · rw [if_pos hcond, if_pos hcond]
      congr 1
      have hk : j - (pyInt (e.start * SR)).toNat < w.length := by omega
      have hk2 : j - (pyInt (e.start * SR)).toNat <
          (w.map (fun x => x * vol)).length := by
        rw [List.length_map]; omega
      rw [List.getD_eq_getElem _ _ hk2, List.getElem_map,
        List.getD_eq_getElem _ _ hk]
    · rw [if_neg hcond, if_neg hcond]

/-- Witness for C3 at a one-sample waveform `[5]`, volume 1/2, start
`1/44100` s (index 1) on a three-sample buffer. -/
theorem C3_mixer_index_amended_witness :
    (0:ℚ) ≤ 1/44100 ∧
    (pyInt ((1/44100 : ℚ) * SR) = ⌊(1/44100 : ℚ) * SR⌋ ∧
     ∃ out, add_events [0, 0, 0] [⟨"n", 2, 1/44100⟩]
         (fun _ _ => some [5]) (1/2) = some out ∧
       out.length = ([0, 0, 0] : List ℚ).length ∧
       ∀ j, j < ([0, 0, 0] : List ℚ).length →
         out.getD j 0 = ([0, 0, 0] : List ℚ).getD j 0 +
           (if (pyInt ((1/44100 : ℚ) * SR)).toNat ≤ j ∧
               j < min ((pyInt ((1/44100 : ℚ) * SR)).toNat +
                 ([5] : List ℚ).length) ([0, 0, 0] : List ℚ).length
            then ([5] : List ℚ).getD
                (j - (pyInt ((1/44100 : ℚ) * SR)).toNat) 0 * (1/2)
            else 0)) :=
  ⟨by norm_num,
   C3_mixer_index_amended [0, 0, 0] ⟨"n", 2, 1/44100⟩
     (fun _ _ => some [5]) (1/2) [5] rfl (by norm_num)⟩

/-! ## Claim C7 -/

theorem add_event_comm (buf : List ℚ) (i : ℕ) (a : List ℚ) (j : ℕ)
    (b : List ℚ) :
    add_event (add_event buf i a) j b = add_event (add_event buf j b) i a := by
  apply List.ext_getElem
  · simp only [add_event_length]
  · intro n h1 h2
    have hbuf : n < buf.length := by
      simpa only [add_event_length] using h1
    have hia : n < (add_event buf i a).length := by
      rw [add_event_length]; exact hbuf
    have hjb : n < (add_event buf j b).length := by
      rw [add_event_length]; exact hbuf
    rw [← List.getD_eq_getElem _ 0 h1, ← List.getD_eq_getElem _ 0 h2]
    rw [add_event_getD (add_event buf i a) j b n hia,
      add_event_getD (add_event buf j b) i a n hjb,
      add_event_getD buf i a n hbuf, add_event_getD buf j b n hbuf]
    simp only [add_event_length]
    ring

theorem add_events_add_event_comm (es : List Event)
    (gen : String → ℚ → Option (List ℚ)) (vol : ℚ) :
    ∀ (buf : List ℚ) (i : ℕ) (a : List ℚ),
      add_events (add_event buf i a) es gen vol =
        (add_events buf es gen vol).map (fun out => add_event out i a) := by
  induction es with
  | nil => intro buf i a; rw [add_events_nil, add_events_nil]; rfl
  | cons e es ih =>
    intro buf i a
    rw [add_events_cons, add_events_cons]
    cases hg : gen e.name e.dur with
    | none => rfl
    | some w =>
      simp only [Option.some_bind]
      rw [add_event_comm, ih]

theorem add_events_comm (evs1 : List Event) (g1 : String → ℚ → Option (List ℚ))
    (v1 : ℚ) (evs2 : List Event) (g2 : String → ℚ → Option (List ℚ)) (v2 : ℚ) :
    ∀ buf : List ℚ,
      (add_events buf evs1 g1 v1).bind (fun b => add_events b evs2 g2 v2) =
      (add_events buf evs2 g2 v2).bind (fun b => add_events b evs1 g1 v1) := by
  induction evs1 with
  | nil =>
    intro buf
    rw [add_events_nil, Option.some_bind]
    cases hx : add_events buf evs2 g2 v2 with
    | none => rfl
    | some b => rw [Option.some_bind, add_events_nil]
  | cons e es ih =>
    intro buf
    rw [add_events_cons]
    cases hg : g1 e.name e.dur with
    | none =>
      simp only [Option.none_bind]
      cases hx : add_events buf evs2 g2 v2 with
      | none => rfl
      | some b => rw [Option.some_bind, add_events_cons, hg]; rfl
    | some w =>
      simp only [Option.some_bind]
      rw [ih, add_events_add_event_comm]
      cases hx : add_events buf evs2 g2 v2 with
      | none => rfl
      | some b =>
        simp only [Option.map_some', Option.some_bind]
        rw [add_events_cons, hg, Option.some_bind]

theorem mixLayers_cons (buf : List ℚ) (x : Layer) (ls : List Layer) :
    mixLayers buf (x :: ls) = (mixLayer buf x).bind (fun b => mixLayers b ls) := by
  cases hx : mixLayer buf x <;> simp [mixLayers, List.foldlM_cons, hx]

/-- Claim C7 (confirmed): with exact sample arithmetic, mixing the layers into
the shared buffer in any permutation of the layer order yields the same final
buffer, because each event only accumulates (`buf[i0:i1] += data`), never
overwrites. -/
theorem C7_mixing_order_independent (ls1 ls2 : List Layer)
    (h : ls1.Perm ls2) : ∀ buf : List ℚ, mixLayers buf ls1 = mixLayers buf ls2 := by
  induction h with
  | nil => intro buf; rfl
  | cons x hp ih =>
    intro buf
    rw [mixLayers_cons, mixLayers_cons]
    cases hx : mixLayer buf x with
    | none => rfl
    | some b => rw [Option.some_bind, Option.some_bind]; exact ih b
  | swap x y l =>
    intro buf
    rw [mixLayers_cons, mixLayers_cons]
    simp only [mixLayers_cons]
    rw [← Option.bind_assoc, ← Option.bind_assoc]
    have hswap : (mixLayer buf y).bind (fun b => mixLayer b x) =
        (mixLayer buf x).bind (fun b => mixLayer b y) :=
      add_events_comm y.events y.gen y.vol x.events x.gen x.vol buf
    rw [hswap]
  | trans h1 h2 ih1 ih2 =>
    intro buf
    exact (ih1 buf).trans (ih2 buf)

/-- Witness for C7: swapping two concrete layers over a two-sample buffer. -/
theorem C7_mixing_order_independent_witness :
    mixLayers [0, 0]
      [⟨[⟨"a", 1, 0⟩], fun _ _ => some [1], 1⟩,
       ⟨[⟨"b", 1, 0⟩], fun _ _ => some [2, 3], 1/2⟩] =
    mixLayers [0, 0]
      [⟨[⟨"b", 1, 0⟩], fun _ _ => some [2, 3], 1/2⟩,
       ⟨[⟨"a", 1, 0⟩], fun _ _ => some [1], 1⟩] := by
  exact C7_mixing_order_independent _ _ (List.Perm.swap _ _ []) [0, 0]

/-! ## Claim C8 -/

/-- Claim C8 (confirmed): with the snare-roll branch silenced, the drum
generator deterministically emits, per beat slot `i < int(D/beat)` with phase
`b = i % 4 + 1`: a kick (0.08s) iff `b ∈ {1,3}`, a snare (0.08s) iff
`b ∈ {2,4}`, a clap (0.08s) iff `b ∈ {2,4}` and the slot start is strictly
past `D/2`, and two hi-hats (0.06s at the start, 0.04s at
`start + 0.25*beat`). -/
theorem C8_drums_deterministic (bpm D : ℚ) (roll : ℕ → ℚ)
    (hroll : ∀ i, ¬ roll i < 1/10) :
    make_drums bpm D roll =
      (List.range (pyInt (D / (60 / bpm))).toNat).flatMap
        (drumSpecSlot (60 / bpm) D) := by
  simp only [make_drums]
  congr 1
  funext i
  simp only [drumSpecSlot, if_neg (hroll i), List.append_nil]
  norm_num

/-- Witness for C8 at `bpm = 120`, `D = 2` with a roll stream that never
fires. -/
theorem C8_drums_deterministic_witness :
    make_drums 120 2 (fun _ => 1) =
      (List.range (pyInt ((2:ℚ) / (60 / 120))).toNat).flatMap
        (drumSpecSlot (60 / 120) 2) :=
  C8_drums_deterministic 120 2 (fun _ => 1) (fun i => by norm_num)

/-! ## Claim C4 -/

theorem make_arpeggio_eq (prog : List String) (bpm : ℚ) (r : ArpRand)
    (D : ℚ) (fuel : ℕ) :
    make_arpeggio prog bpm r D fuel =
      (pyChoice ["asc", "desc", "rand"] r.styleC).bind
        (fun style => arpLoop prog bpm r D style fuel 0 0 []) := rfl

theorem melodyLoop_chain (prog : List String) (bpm : ℚ) (motif : List String)
    (r : MelRand) (D : ℚ) :
    ∀ (fuel : ℕ) (t : ℚ) (k : ℕ) (acc res : List Event), t ≤ D →
      melodyLoop prog bpm motif r D fuel t k acc = some res →
      ∃ tail, res = acc ++ tail ∧ chainB t tail = true ∧
        sumDur tail = D - t := by
  intro fuel
  induction fuel with
  | zero =>
    intro t k acc res ht h
    exact Option.noConfusion h
  | succ fuel ih =>
    intro t k acc res ht h
    simp only [melodyLoop] at h
    by_cases htD : t < D
    · rw [if_pos htD] at h
      simp only [Option.bind_eq_bind, Option.bind_eq_some] at h
      obtain ⟨root, hroot, pool, hpool, drawn, hdrawn, note, hnote, h⟩ := h
      have hdle : min ([(1:ℚ)/2, 1, 2].getD (r.durC k % 3) 1 * (60 / bpm))
          (D - t) ≤ D - t := min_le_right _ _
      have ht2 : t + min ([(1:ℚ)/2, 1, 2].getD (r.durC k % 3) 1 * (60 / bpm))
          (D - t) ≤ D := by linarith
      obtain ⟨tail, htail, hchain, hsum⟩ := ih _ _ _ _ ht2 h
      refine ⟨⟨note, min ([(1:ℚ)/2, 1, 2].getD (r.durC k % 3) 1 * (60 / bpm))
        (D - t), t⟩ :: tail, ?_, ?_, ?_⟩
      · rw [htail, List.append_assoc]
        rfl
      · simp only [chainB, hchain, Bool.and_true, decide_eq_true_eq]
      · simp only [sumDur, List.map_cons, List.sum_cons] at hsum ⊢
        rw [hsum]
        ring
    · rw [if_neg htD] at h
      cases h
      have hteq : t = D := le_antisymm ht (not_lt.mp htD)
      refine ⟨[], by simp, rfl, by simp [sumDur, hteq]⟩

theorem arpLoop_chain (prog : List String) (bpm : ℚ) (r : ArpRand) (D : ℚ)
    (style : String) :
    ∀ (fuel : ℕ) (t : ℚ) (idx : ℕ) (acc res : List Event), t ≤ D →
      arpLoop prog bpm r D style fuel t idx acc = some res →
      ∃ tail, res = acc ++ tail ∧ chainB t tail = true ∧
        sumDur tail = D - t := by
  intro fuel
  induction fuel with
  | zero =>
    intro t idx acc res ht h
    exact Option.noConfusion h
  | succ fuel ih =>
    intro t idx acc res ht h
    simp only [arpLoop] at h
    by_cases htD : t < D
    · rw [if_pos htD] at h
      simp only [Option.bind_eq_bind, Option.bind_eq_some] at h
      obtain ⟨root, hroot, notes0, hnotes0, n, hn, h⟩ := h
      have hdle : min ((1/2) * (60 / bpm)) (D - t) ≤ D - t := min_le_right _ _
      have ht2 : t + min ((1/2) * (60 / bpm)) (D - t) ≤ D := by linarith
      obtain ⟨tail, htail, hchain, hsum⟩ := ih _ _ _ _ ht2 h
      refine ⟨⟨n, min ((1/2) * (60 / bpm)) (D - t), t⟩ :: tail, ?_, ?_, ?_⟩
      · rw [htail, List.append_assoc]
        rfl
      · simp only [chainB, hchain, Bool.and_true, decide_eq_true_eq]
      · simp only [sumDur, List.map_cons, List.sum_cons] at hsum ⊢
        rw [hsum]
        ring
    · rw [if_neg htD] at h
      cases h
      have hteq : t = D := le_antisymm ht (not_lt.mp htD)
      refine ⟨[], by simp, rfl, by simp [sumDur, hteq]⟩

theorem bassLoop_chain (prog : List String) (bpm D : ℚ) :
    ∀ (fuel : ℕ) (t : ℚ) (idx : ℕ) (acc res : List Event), t ≤ D →
      bassLoop prog bpm D fuel t idx acc = some res →
      ∃ tail, res = acc ++ tail ∧ chainB t tail = true ∧
        sumDur tail = D - t := by
  intro fuel
  induction fuel with
  | zero =>
    intro t idx acc res ht h
    exact Option.noConfusion h
  | succ fuel ih =>
    intro t idx acc res ht h
    simp only [bassLoop] at h
    by_cases htD : t < D
    · rw [if_pos htD] at h
      simp only [Option.bind_eq_bind, Option.bind_eq_some] at h
      obtain ⟨root, hroot, h⟩ := h
      have hdle : min (4 * (60 / bpm)) (D - t) ≤ D - t := min_le_right _ _
      have ht2 : t + min (4 * (60 / bpm)) (D - t) ≤ D := by linarith
      obtain ⟨tail, htail, hchain, hsum⟩ := ih _ _ _ _ ht2 h
      refine ⟨⟨root, min (4 * (60 / bpm)) (D - t), t⟩ :: tail, ?_, ?_, ?_⟩
      · rw [htail, List.append_assoc]
        rfl
      · simp only [chainB, hchain, Bool.and_true, decide_eq_true_eq]
      · simp only [sumDur, List.map_cons, List.sum_cons] at hsum ⊢
        rw [hsum]
        ring
    · rw [if_neg htD] at h
      cases h
      have hteq : t = D := le_antisymm ht (not_lt.mp htD)
      refine ⟨[], by simp, rfl, by simp [sumDur, hteq]⟩

theorem padsLoop_chain (prog : List String) (bpm D : ℚ) :
    ∀ (fuel : ℕ) (t : ℚ) (idx : ℕ) (acc res : List Event),
      padsLoop prog bpm D fuel t idx acc = some res →
      ∃ tail, res = acc ++ tail ∧
        padsChainB (4 * (60 / bpm)) D t tail = true := by
  intro fuel
  induction fuel with
  | zero =>
    intro t idx acc res h
    exact Option.noConfusion h
  | succ fuel ih =>
    intro t idx acc res h
    simp only [padsLoop] at h
    by_cases htD : t < D
    · rw [if_pos htD] at h
      simp only [Option.bind_eq_bind, Option.bind_eq_some] at h
      obtain ⟨root, hroot, notes, hnotes, h⟩ := h
      obtain ⟨n1, n2, n3, rfl⟩ :=
        List.length_eq_three.mp (chord_notes_length hnotes)
      obtain ⟨tail, htail, hchain⟩ := ih _ _ _ _ h
      refine ⟨⟨n1, min (4 * (60 / bpm)) (D - t), t⟩ ::
        ⟨n2, min (4 * (60 / bpm)) (D - t), t⟩ ::
        ⟨n3, min (4 * (60 / bpm)) (D - t), t⟩ :: tail, ?_, ?_⟩
      · rw [htail, List.append_assoc]
        rfl
      · simp only [padsChainB, htD, hchain, decide_True, Bool.and_true,
          Bool.true_and, decide_eq_true_eq]
    · rw [if_neg htD] at h
      cases h
      refine ⟨[], by simp, ?_⟩
      simp only [padsChainB, decide_eq_true_eq]
      exact not_lt.mp htD

/-- Claim C4 (counterexample): the pads generator violates the claimed
non-overlap chaining — with progression `["C3"]`, `bpm = 60`, `D = 4` it emits
three simultaneous events; the second event's start (0) is not the first
event's start plus its duration (4). -/
theorem C4_counterexample :
    make_pads ["C3"] 60 4 2 =
      some [⟨"C4", 4, 0⟩, ⟨"E4", 4, 0⟩, ⟨"G4", 4, 0⟩] ∧
    chainB 0 [⟨"C4", 4, 0⟩, ⟨"E4", 4, 0⟩, ⟨"G4", 4, 0⟩] = false ∧
    (⟨"E4", 4, 0⟩ : Event).start ≠
      (⟨"C4", 4, 0⟩ : Event).start + (⟨"C4", 4, 0⟩ : Event).dur := by
  refine ⟨?_, ?_, ?_⟩
  · norm_num [make_pads, padsLoop, pickCyc, chord_notes]
  · norm_num [chainB]
  · show (0:ℚ) ≠ 0 + 4
    norm_num

/-- Claim C4 (amended): melody, arpeggio and bassline do satisfy the claim —
successive events chain (each starts where the previous ended, from 0) and
their durations sum to exactly `D`; the pads generator instead emits one group
of three simultaneous events per chord (shared start and clamped duration
`min(4*beat, D - t)`), with group onsets exactly `4*beat` apart until the
clock reaches `D`. -/
theorem C4_layer_coverage_amended (prog : List String) (bpm D : ℚ)
    (motif : List String) (r : MelRand) (r2 : ArpRand) (fuel : ℕ)
    (hD : 0 ≤ D) :
    (∀ res, make_melody prog bpm motif r D fuel = some res →
        chainB 0 res = true ∧ sumDur res = D) ∧
    (∀ res, make_arpeggio prog bpm r2 D fuel = some res →
        chainB 0 res = true ∧ sumDur res = D) ∧
    (∀ res, make_bass prog bpm D fuel = some res →
        chainB 0 res = true ∧ sumDur res = D) ∧
    (∀ res, make_pads prog bpm D fuel = some res →
        padsChainB (4 * (60 / bpm)) D 0 res = true) := by
  refine ⟨?_, ?_, ?_, ?_⟩
  · intro res h
    obtain ⟨tail, htail, hchain, hsum⟩ :=
      melodyLoop_chain prog bpm motif r D fuel 0 0 [] res hD h
    rw [List.nil_append] at htail
    subst htail
    exact ⟨hchain, by rw [hsum]; ring⟩
  · intro res h
    rw [make_arpeggio_eq] at h
    simp only [Option.bind_eq_bind, Option.bind_eq_some] at h
    obtain ⟨style, hstyle, h⟩ := h
    obtain ⟨tail, htail, hchain, hsum⟩ :=
      arpLoop_chain prog bpm r2 D style fuel 0 0 [] res hD h
    rw [List.nil_append] at htail
    subst htail
    exact ⟨hchain, by rw [hsum]; ring⟩
  · intro res h
    obtain ⟨tail, htail, hchain, hsum⟩ :=
      bassLoop_chain prog bpm D fuel 0 0 [] res hD h
    rw [List.nil_append] at htail
    subst htail
    exact ⟨hchain, by rw [hsum]; ring⟩
  · intro res h
    obtain ⟨tail, htail, hchain⟩ :=
      padsLoop_chain prog bpm D fuel 0 0 [] res h
    rw [List.nil_append] at htail
    subst htail
    exact hchain

/-- Witness for C4: the bass run `["C3"]`, `bpm = 60`, `D = 4` (one event of
duration 4 at 0) chains and covers, and the corresponding pads run has the
grouped shape. -/
theorem C4_layer_coverage_amended_witness :
    (chainB 0 [⟨"C3", 4, 0⟩] = true ∧ sumDur [⟨"C3", 4, 0⟩] = 4) ∧
    padsChainB (4 * (60 / 60)) 4 0
      [⟨"C4", 4, 0⟩, ⟨"E4", 4, 0⟩, ⟨"G4", 4, 0⟩] = true := by
  have hC4 := C4_layer_coverage_amended ["C3"] 60 4 []
    ⟨fun _ => 0, fun _ => 0, fun _ => 0, fun _ => 0, fun _ => 0⟩
    ⟨0, fun _ l => l⟩ 2 (by norm_num)
  constructor
  · exact hC4.2.2.1 [⟨"C3", 4, 0⟩]
      (by norm_num [make_bass, bassLoop, pickCyc])
  · exact hC4.2.2.2 [⟨"C4", 4, 0⟩, ⟨"E4", 4, 0⟩, ⟨"G4", 4, 0⟩]
      (by norm_num [make_pads, padsLoop, pickCyc, chord_notes])

/-! ## Claim C5 -/

/-- Claim C5 (confirmed): the mixer never writes outside the buffer — the
result of `add_events` always has the buffer's length, an event whose start
index `i0 = int(start*SR)` is at or past the length is silently dropped, and
in particular an event starting exactly at `DURATION` has `i0` equal to the
program's buffer length `int(DURATION*SR)` and leaves the buffer unchanged. -/
theorem C5_mixer_bounds :
    (∀ (buf : List ℚ) (es : List Event) (gen : String → ℚ → Option (List ℚ))
        (vol : ℚ) (out : List ℚ), add_events buf es gen vol = some out →
        out.length = buf.length) ∧
    (∀ (buf : List ℚ) (e : Event) (gen : String → ℚ → Option (List ℚ))
        (vol : ℚ) (w : List ℚ), gen e.name e.dur = some w →
        buf.length ≤ (pyInt (e.start * SR)).toNat →
        add_events buf [e] gen vol = some buf) ∧
    ((∀ e : Event, e.start = DURATION →
        (pyInt (e.start * SR)).toNat = buffer_len) ∧
     (∀ (buf : List ℚ) (e : Event) (gen : String → ℚ → Option (List ℚ))
        (vol : ℚ) (w : List ℚ), gen e.name e.dur = some w →
        e.start = DURATION → buf.length = buffer_len →
        add_events buf [e] gen vol = some buf)) := by
  refine ⟨?_, ?_, ?_, ?_⟩
  · intro buf es gen vol out h
    exact add_events_length es gen vol buf out h
  · intro buf e gen vol w hg hlen
    rw [add_events_singleton buf e gen vol w hg, add_event_oob _ _ _ hlen]
  · intro e he
    rw [he]
    rfl
  · intro buf e gen vol w hg he hlen
    rw [add_events_singleton buf e gen vol w hg, add_event_oob]
    rw [hlen, he]
    exact le_refl _

/-- Witness for C5: a dropped event starting exactly at `DURATION` seconds on
a buffer of the program's length, and length preservation on a small
two-sample mix. -/
theorem C5_mixer_bounds_witness :
    add_events (List.replicate buffer_len (0:ℚ)) [⟨"kick", 1/44100, DURATION⟩]
      (fun _ _ => some [1]) 1 = some (List.replicate buffer_len (0:ℚ)) ∧
    ∀ out, add_events [0, 0] [⟨"kick", 1/44100, 0⟩]
      (fun _ _ => some [1]) 1 = some out → out.length = 2 := by
  constructor
  · exact C5_mixer_bounds.2.2.2 _ ⟨"kick", 1/44100, DURATION⟩ _ 1 [1] rfl rfl
      (List.length_replicate _ _)
  · intro out h
    exact C5_mixer_bounds.1 [0, 0] _ _ 1 out h

/-! ## Claim C10 -/

theorem ceil_measure_lt (bpm D t adv : ℚ) (hb : 0 < bpm) (ht : t < D)
    (hadv : min (30 / bpm) (D - t) ≤ adv) :
    (⌈(D - (t + adv)) * bpm / 30⌉).toNat < (⌈(D - t) * bpm / 30⌉).toNat := by
  have h1 : (0:ℚ) < D - t := sub_pos.mpr ht
  have hX : (0:ℚ) < (D - t) * bpm / 30 := by positivity
  have hceil1 : 0 < ⌈(D - t) * bpm / 30⌉ := Int.ceil_pos.mpr hX
  rcases le_or_lt (D - t) (30 / bpm) with hc | hc
  · have hadv2 : D - t ≤ adv := by
      rw [min_eq_right hc] at hadv
      exact hadv
    have hY : (D - (t + adv)) * bpm / 30 ≤ 0 := by
      have h2 : D - (t + adv) ≤ 0 := by linarith
      have h3 : (D - (t + adv)) * bpm ≤ 0 :=
        mul_nonpos_iff.mpr (Or.inr ⟨h2, hb.le⟩)
      exact div_nonpos_iff.mpr (Or.inr ⟨h3, by norm_num⟩)
    have hceil2 : ⌈(D - (t + adv)) * bpm / 30⌉ ≤ 0 :=
      Int.ceil_le.mpr (by exact_mod_cast hY)
    omega
  · have hadv2 : 30 / bpm ≤ adv := by
      rw [min_eq_left hc.le] at hadv
      exact hadv
    have hstep : (1:ℚ) ≤ adv * bpm / 30 := by
      rw [le_div_iff (by norm_num : (0:ℚ) < 30)]
      have := (div_le_iff hb).mp hadv2
      linarith
    have hle : (D - (t + adv)) * bpm / 30 ≤ (D - t) * bpm / 30 - 1 := by
      have hexp : (D - (t + adv)) * bpm / 30 =
          (D - t) * bpm / 30 - adv * bpm / 30 := by ring
      rw [hexp]
      linarith
    have hc2 : ⌈(D - (t + adv)) * bpm / 30⌉ ≤ ⌈(D - t) * bpm / 30⌉ - 1 := by
      calc ⌈(D - (t + adv)) * bpm / 30⌉ ≤ ⌈(D - t) * bpm / 30 - 1⌉ :=
        Int.ceil_mono hle
      _ = ⌈(D - t) * bpm / 30⌉ - 1 := Int.ceil_sub_one _
    omega

theorem melodyLoop_isSome (prog : List String) (bpm : ℚ) (motif : List String)
    (r : MelRand) (D : ℚ) (hb : 0 < bpm) (hprog : prog ≠ [])
    (hco : ∀ rt ∈ prog, (chord_notes rt).isSome) (hmotif : motif ≠ []) :
    ∀ (fuel : ℕ) (t : ℚ) (k : ℕ) (acc : List Event),
      (⌈(D - t) * bpm / 30⌉).toNat < fuel →
      (melodyLoop prog bpm motif r D fuel t k acc).isSome := by
  intro fuel
  induction fuel with
  | zero => intro t k acc hf; exact absurd hf (Nat.not_lt_zero _)
  | succ fuel ih =>
    intro t k acc hf
    by_cases htD : t < D
    · simp only [melodyLoop]
      rw [if_pos htD]
      obtain ⟨root, hroot, hrootmem⟩ :=
        pickCyc_eq_some (pyInt (t / (4 * (60 / bpm)))) hprog
      rw [hroot, Option.some_bind]
      have hpool : ∃ pool, (if r.poolQ k < 7/10 then chord_notes root
          else some scale) = some pool ∧ pool ≠ [] := by
        by_cases hq : r.poolQ k < 7/10
        · rw [if_pos hq]
          obtain ⟨l, hl⟩ := Option.isSome_iff_exists.mp (hco root hrootmem)
          refine ⟨l, hl, ?_⟩
          have h3 := chord_notes_length hl
          intro hnil
          rw [hnil] at h3
          simp at h3
        · rw [if_neg hq]
          exact ⟨scale, rfl, by simp [scale]⟩
      obtain ⟨pool, hpool, hpoolne⟩ := hpool
      rw [hpool, Option.some_bind]
      obtain ⟨drawn, hdrawn, hdm⟩ := pyChoice_eq_some (r.poolC k) hpoolne
      rw [hdrawn, Option.some_bind]
      have hnote : ∃ note, (if r.motifQ k < 2/10 then
          pyChoice motif (r.motifC k) else some drawn) = some note := by
        by_cases hm : r.motifQ k < 2/10
        · rw [if_pos hm]
          obtain ⟨nt, hnt, hm2⟩ := pyChoice_eq_some (r.motifC k) hmotif
          exact ⟨nt, hnt⟩
        · rw [if_neg hm]
          exact ⟨drawn, rfl⟩
      obtain ⟨note, hnote⟩ := hnote
      rw [hnote, Option.some_bind]
      apply ih
      have hmult : (1:ℚ)/2 ≤ [(1:ℚ)/2, 1, 2].getD (r.durC k % 3) 1 := by
        have h3 : r.durC k % 3 = 0 ∨ r.durC k % 3 = 1 ∨ r.durC k % 3 = 2 := by
          omega
        rcases h3 with h3 | h3 | h3 <;> rw [h3] <;> norm_num
      have hbeat : (0:ℚ) < 60 / bpm := by positivity
      have hwb : 30 / bpm ≤ [(1:ℚ)/2, 1, 2].getD (r.durC k % 3) 1 * (60 / bpm) := by
        have h30 : (30:ℚ)/bpm = (1/2) * (60/bpm) := by
          field_simp
          ring
        rw [h30]
        exact mul_le_mul_of_nonneg_right hmult hbeat.le
      have hadv : min (30/bpm) (D - t) ≤
          min ([(1:ℚ)/2, 1, 2].getD (r.durC k % 3) 1 * (60 / bpm)) (D - t) :=
        min_le_min hwb (le_refl _)
      have hlt := ceil_measure_lt bpm D t
        (min ([(1:ℚ)/2, 1, 2].getD (r.durC k % 3) 1 * (60 / bpm)) (D - t))
        hb htD hadv
      omega
    · simp only [melodyLoop]
      rw [if_neg htD]
      rfl

theorem arpLoop_isSome (prog : List String) (bpm : ℚ) (r : ArpRand) (D : ℚ)
    (style : String) (hb : 0 < bpm) (hprog : prog ≠ [])
    (hco : ∀ rt ∈ prog, (chord_notes rt).isSome)
    (hshuf : ∀ (k : ℕ) (l : List String), (r.shuffle k l).Perm l) :
    ∀ (fuel : ℕ) (t : ℚ) (idx : ℕ) (acc : List Event),
      (⌈(D - t) * bpm / 30⌉).toNat < fuel →
      (arpLoop prog bpm r D style fuel t idx acc).isSome := by
  intro fuel
  induction fuel with
  | zero => intro t idx acc hf; exact absurd hf (Nat.not_lt_zero _)
  | succ fuel ih =>
    intro t idx acc hf
    by_cases htD : t < D
    · simp only [arpLoop]
      rw [if_pos htD]
      obtain ⟨root, hroot, hrootmem⟩ :=
        pickCyc_eq_some (pyInt (t / (4 * (60 / bpm)))) hprog
      rw [hroot, Option.some_bind]
      obtain ⟨notes0, hnotes0⟩ := Option.isSome_iff_exists.mp (hco root hrootmem)
      rw [hnotes0, Option.some_bind]
      have hlen3 : notes0.length = 3 := chord_notes_length hnotes0
      have hnne : (if style = "asc" then
            notes0.mergeSort (fun a b => freqKey a ≤ freqKey b)
          else if style = "desc" then
            notes0.mergeSort (fun a b => freqKey b ≤ freqKey a)
          else if style = "rand" then r.shuffle idx notes0
          else notes0) ≠ [] := by
        have hlen : (if style = "asc" then
            notes0.mergeSort (fun a b => freqKey a ≤ freqKey b)
          else if style = "desc" then
            notes0.mergeSort (fun a b => freqKey b ≤ freqKey a)
          else if style = "rand" then r.shuffle idx notes0
          else notes0).length = 3 := by
          split_ifs
          · rw [List.length_mergeSort]; exact hlen3
          · rw [List.length_mergeSort]; exact hlen3
          · rw [(hshuf idx notes0).length_eq]; exact hlen3
          · exact hlen3
        intro hnil
        rw [hnil] at hlen
        simp at hlen
      obtain ⟨n, hn, hnm⟩ := pickCyc_eq_some (idx : ℤ) hnne
      rw [hn, Option.some_bind]
      apply ih
      have h30 : (30:ℚ)/bpm = (1/2) * (60/bpm) := by
        field_simp
        ring
      have hadv : min (30/bpm) (D - t) ≤ min ((1/2) * (60 / bpm)) (D - t) := by
        rw [h30]
      have hlt := ceil_measure_lt bpm D t (min ((1/2) * (60 / bpm)) (D - t))
        hb htD hadv
      omega
    · simp only [arpLoop]
      rw [if_neg htD]
      rfl

theorem bassLoop_isSome (prog : List String) (bpm D : ℚ) (hb : 0 < bpm)
    (hprog : prog ≠ []) :
    ∀ (fuel : ℕ) (t : ℚ) (idx : ℕ) (acc : List Event),
      (⌈(D - t) * bpm / 30⌉).toNat < fuel →
      (bassLoop prog bpm D fuel t idx acc).isSome := by
  intro fuel
  induction fuel with
  | zero => intro t idx acc hf; exact absurd hf (Nat.not_lt_zero _)
  | succ fuel ih =>
    intro t idx acc hf
    by_cases htD : t < D
    · simp only [bassLoop]
      rw [if_pos htD]
      obtain ⟨root, hroot, hrootmem⟩ := pickCyc_eq_some (idx : ℤ) hprog
      rw [hroot, Option.some_bind]
      apply ih
      have h240 : (30:ℚ)/bpm ≤ 4 * (60/bpm) := by
        rw [div_le_iff hb]
        have h4 : 4 * (60/bpm) * bpm = 240 := by
          field_simp
          ring
        rw [h4]
        norm_num
      have hadv : min (30/bpm) (D - t) ≤ min (4 * (60 / bpm)) (D - t) :=
        min_le_min h240 (le_refl _)
      have hlt := ceil_measure_lt bpm D t (min (4 * (60 / bpm)) (D - t))
        hb htD hadv
      omega
    · simp only [bassLoop]
      rw [if_neg htD]
      rfl

theorem padsLoop_isSome (prog : List String) (bpm D : ℚ) (hb : 0 < bpm)
    (hprog : prog ≠ []) (hco : ∀ rt ∈ prog, (chord_notes rt).isSome) :
    ∀ (fuel : ℕ) (t : ℚ) (idx : ℕ) (acc : List Event),
      (⌈(D - t) * bpm / 30⌉).toNat < fuel →
      (padsLoop prog bpm D fuel t idx acc).isSome := by
  intro fuel
  induction fuel with
  | zero => intro t idx acc hf; exact absurd hf (Nat.not_lt_zero _)
  | succ fuel ih =>
    intro t idx acc hf
    by_cases htD : t < D
    · simp only [padsLoop]
      rw [if_pos htD]
      obtain ⟨root, hroot, hrootmem⟩ := pickCyc_eq_some (idx : ℤ) hprog
      rw [hroot, Option.some_bind]
      obtain ⟨notes, hnotes⟩ := Option.isSome_iff_exists.mp (hco root hrootmem)
      rw [hnotes, Option.some_bind]
      apply ih
      have h240 : (30:ℚ)/bpm ≤ 4 * (60/bpm) := by
        rw [div_le_iff hb]
        have h4 : 4 * (60/bpm) * bpm = 240 := by
          field_simp
          ring
        rw [h4]
        norm_num
      have hadv : min (30/bpm) (D - t) ≤ 4 * (60 / bpm) :=
        le_trans (min_le_left _ _) h240
      have hlt := ceil_measure_lt bpm D t (4 * (60 / bpm)) hb htD hadv
      omega
    · simp only [padsLoop]
      rw [if_neg htD]
      rfl

/-- Claim C10 (confirmed): for every `bpm > 0` and total duration `D`, the
four clock-driven generators terminate — every loop iteration advances `t` by
at least `min(beat/2, D - t) > 0` (pads by the full `4*beat`), so the explicit
iteration bound `⌈D*bpm/30⌉` makes each loop return a result. -/
theorem C10_generators_terminate (prog : List String) (bpm D : ℚ)
    (motif : List String) (r : MelRand) (r2 : ArpRand) (fuel : ℕ)
    (hb : 0 < bpm) (hprog : prog ≠ [])
    (hco : ∀ rt ∈ prog, (chord_notes rt).isSome) (hmotif : motif ≠ [])
    (hshuf : ∀ (k : ℕ) (l : List String), (r2.shuffle k l).Perm l)
    (hfuel : (⌈(D - 0) * bpm / 30⌉).toNat < fuel) :
    (make_melody prog bpm motif r D fuel).isSome ∧
    (make_arpeggio prog bpm r2 D fuel).isSome ∧
    (make_bass prog bpm D fuel).isSome ∧
    (make_pads prog bpm D fuel).isSome := by
  refine ⟨?_, ?_, ?_, ?_⟩
  · exact melodyLoop_isSome prog bpm motif r D hb hprog hco hmotif
      fuel 0 0 [] hfuel
  · obtain ⟨style, hstyle, hsm⟩ :=
      @pyChoice_eq_some String ["asc", "desc", "rand"] r2.styleC (by simp)
    rw [make_arpeggio_eq, hstyle, Option.some_bind]
    exact arpLoop_isSome prog bpm r2 D style hb hprog hco hshuf
      fuel 0 0 [] hfuel
  · exact bassLoop_isSome prog bpm D hb hprog fuel 0 0 [] hfuel
  · exact padsLoop_isSome prog bpm D hb hprog hco fuel 0 0 [] hfuel

/-- Witness for C10: the program's own configuration shape — a catalog
progression, `bpm = 120`, `D = 15` — with fuel 100 (the bound is 60). -/
theorem C10_generators_terminate_witness :
    (make_melody ["C3", "G3", "A3", "F3"] 120 ["C4", "C4", "C4"]
      ⟨fun _ => 0, fun _ => 0, fun _ => 1, fun _ => 0, fun _ => 0⟩
      15 100).isSome ∧
    (make_arpeggio ["C3", "G3", "A3", "F3"] 120 ⟨0, fun _ l => l⟩
      15 100).isSome ∧
    (make_bass ["C3", "G3", "A3", "F3"] 120 15 100).isSome ∧
    (make_pads ["C3", "G3", "A3", "F3"] 120 15 100).isSome := by
  apply C10_generators_terminate
  · norm_num
  · simp
  · intro rt hrt
    fin_cases hrt <;> rfl
  · simp
  · intro k l
    exact List.Perm.refl l
  · rw [show ⌈((15:ℚ) - 0) * 120 / 30⌉ = (60:ℤ) from by norm_num]
    norm_num

/-! ## Claim C9 -/

theorem arpLoop_skel (prog : List String) (bpm : ℚ) (r : ArpRand) (D : ℚ)
    (style : String) :
    ∀ (fuel : ℕ) (t : ℚ) (idx : ℕ) (acc res : List Event),
      arpLoop prog bpm r D style fuel t idx acc = some res →
      res.map (fun e => (e.dur, e.start)) =
        acc.map (fun e => (e.dur, e.start)) ++ arpSkel bpm D fuel t := by
  intro fuel
  induction fuel with
  | zero => intro t idx acc res h; exact Option.noConfusion h
  | succ fuel ih =>
    intro t idx acc res h
    simp only [arpLoop] at h
    by_cases htD : t < D
    · rw [if_pos htD] at h
      simp only [Option.bind_eq_bind, Option.bind_eq_some] at h
      obtain ⟨root, hroot, notes0, hnotes0, n, hn, h⟩ := h
      rw [ih _ _ _ _ h]
      simp only [arpSkel]
      rw [if_pos htD]
      simp only [List.map_append, List.map_cons, List.map_nil,
        List.append_assoc, List.singleton_append]
    · rw [if_neg htD] at h
      cases h
      simp only [arpSkel]
      rw [if_neg htD]
      simp

/-- Claim C9 (confirmed): with `D = 1` s, `bpm = 120` and a progression of a
single repeated chord, the bassline generator emits exactly the one event
`("C3", 1.0s, 0.0s)` — clamped from 4 beats (2 s) to 1 s — and the arpeggio
generator emits exactly 4 events of 0.25 s each with starts 0, 0.25, 0.5,
0.75, for every style draw and every shuffle. -/
theorem C9_short_run_scenario (r : ArpRand)
    (hshuf : ∀ (k : ℕ) (l : List String), (r.shuffle k l).Perm l) :
    make_bass ["C3", "C3", "C3", "C3"] 120 1 8 = some [⟨"C3", 1, 0⟩] ∧
    ∃ out, make_arpeggio ["C3", "C3", "C3", "C3"] 120 r 1 8 = some out ∧
      out.length = 4 ∧
      out.map Event.dur = [1/4, 1/4, 1/4, 1/4] ∧
      out.map Event.start = [0, 1/4, 1/2, 3/4] := by
  constructor
  · norm_num [make_bass, bassLoop, pickCyc]
  · obtain ⟨style, hstyle, hsm⟩ :=
      @pyChoice_eq_some String ["asc", "desc", "rand"] r.styleC (by simp)
    have hsome := arpLoop_isSome ["C3", "C3", "C3", "C3"] 120 r 1 style
      (by norm_num) (by simp)
      (by intro rt hrt; fin_cases hrt <;> rfl) hshuf 8 0 0 []
      (by rw [show ⌈((1:ℚ) - 0) * 120 / 30⌉ = (4:ℤ) from by norm_num]; norm_num)
    obtain ⟨out, hout⟩ := Option.isSome_iff_exists.mp hsome
    have hskel := arpLoop_skel ["C3", "C3", "C3", "C3"] 120 r 1 style
      8 0 0 [] out hout
    rw [List.map_nil, List.nil_append] at hskel
    have hskelval : arpSkel 120 1 8 0 =
        [((1:ℚ)/4, (0:ℚ)), (1/4, 1/4), (1/4, 1/2), (1/4, 3/4)] := by
      norm_num [arpSkel]
    rw [hskelval] at hskel
    refine ⟨out, ?_, ?_, ?_, ?_⟩
    · rw [make_arpeggio_eq, hstyle, Option.some_bind]
      exact hout
    · have hl := congrArg List.length hskel
      rw [List.length_map] at hl
      simpa using hl
    · have hd : out.map Event.dur =
          (out.map (fun e => (e.dur, e.start))).map Prod.fst := by
        rw [List.map_map]
        rfl
      rw [hd, hskel]
      rfl
    · have hs : out.map Event.start =
          (out.map (fun e => (e.dur, e.start))).map Prod.snd := by
        rw [List.map_map]
        rfl
      rw [hs, hskel]
      rfl

/-- Witness for C9 at the identity shuffle. -/
theorem C9_short_run_scenario_witness :
    make_bass ["C3", "C3", "C3", "C3"] 120 1 8 = some [⟨"C3", 1, 0⟩] ∧
    ∃ out, make_arpeggio ["C3", "C3", "C3", "C3"] 120 ⟨0, fun _ l => l⟩
        1 8 = some out ∧
      out.length = 4 ∧
      out.map Event.dur = [1/4, 1/4, 1/4, 1/4] ∧
      out.map Event.start = [0, 1/4, 1/2, 3/4] :=
  C9_short_run_scenario ⟨0, fun _ l => l⟩ (fun k l => List.Perm.refl l)

end MusicGen
